import Mathlib

/-!
Verification of the core algorithm of the shor-web repository
(`services/shor.ts`): the numeric kernel (`gcd`, `power`,
`getConvergents`) and the attempt sequencer (`runShor`).

Embedding conventions.

The TypeScript source computes with `bigint` (exact arbitrary-precision
integers).  Every value that flows through the functions modelled below is
non-negative: the session input `N` is a positive integer, the chosen base
is `floor(random * (N - 2)) + 2 ≥ 2`, and all derived quantities (gcd
arguments, exponents, moduli, continued-fraction state) stay non-negative;
on non-negative operands TypeScript bigint `/` and `%` agree with `Nat`
division and remainder.  We therefore embed the arithmetic over `Nat`.
The single subtraction in the source, `term - 1n` inside the factor
extraction step, is reached only after the co-primality check has
established `gcd(a, N) = 1`, which forces `term = a^(period/2) mod N ≥ 1`
(a power of a unit mod `N > 1` is never `0`), so `Nat` truncated
subtraction agrees with bigint subtraction there as well.

The `async generator` `runShor` is modelled as a function producing the
list of yielded snapshots: each `yield currentAttempt` in the source is
recorded as a copy of the record at that point, in order.  The `throw` on
invalid input (before any yield) is modelled by `Except.error`; a normal
return by `Except.ok` with the full snapshot list.  The two
`Math.random()` draws of each attempt `i` are injected as oracles:
`rngA i` models `Math.floor(Math.random() * (Number(N) - 2))` (so the
faithfulness hypothesis is `rngA i < N - 2`, i.e. `rngA i + 2 < N`), and
`rngS i m` models `Math.floor(Math.random() * m)` for range `m` (so the
hypothesis is `0 < m → rngS i m < m`).

The qubit count `t` is computed by the source as
`Math.ceil(2 * Math.log2(Number(N)))` in double precision; we embed its
exact-real value `⌈2·log₂ N⌉ = Nat.clog 2 (N * N)` (the least `t` with
`2^t ≥ N²`), which coincides with the double-precision result for every
odd `N` in the application's supported range (`N ≤ 100000`, far below
any precision loss for `log2`).

The classical period-finding loop
(`while (val !== 1n) { val = val * a % N; r++ }`) has no structural
termination measure, so it is embedded with an explicit fuel parameter
`N`; `findPeriod_isSome` proves that this fuel is never exhausted in any
reachable state (`gcd(a, N) = 1`, `N ≥ 2`), which is exactly the
termination argument for the source loop.
-/

namespace Shor

/-- Status of an attempt record: `'running' | 'failed' | 'success'`. -/
inductive ShorStatus where
  | running : ShorStatus
  | failed : ShorStatus
  | success : ShorStatus
deriving DecidableEq, Repr

/-- One convergent of the continued-fraction expansion, mirroring the
`Convergent` interface of the source: partial quotient `a`, numerator,
denominator. -/
structure Convergent where
  a : Nat
  numerator : Nat
  denominator : Nat
deriving DecidableEq, Repr

/-- The `ShorAttempt` progress record from the source, with every optional
field an `Option` (absent = `none`). -/
structure ShorAttempt where
  id : Nat
  n : Nat
  a : Nat
  status : ShorStatus
  gcdCheck : Option Nat := none
  quantumResult : Option (Nat × Nat × Nat) := none
  fractionResult : Option (List Convergent × Nat) := none
  period : Option Nat := none
  verification : Option (Bool × Bool) := none
  factorizationResult : Option (Nat × Nat × Nat) := none
  factors : Option (Nat × Nat) := none
  error : Option String := none
deriving DecidableEq, Repr

/-- `gcd` from the source: Euclidean algorithm,
`while (b) { [a, b] = [b, a % b] } return a`. -/
def gcd (a b : Nat) : Nat :=
  if b = 0 then a else gcd b (a % b)
termination_by b
decreasing_by exact Nat.mod_lt a (Nat.pos_of_ne_zero (by assumption))

/-- The loop of `power` from the source:
`while (exp > 0) { if (exp % 2 === 1) res = res * base % mod;
base = base * base % mod; exp /= 2 }`. -/
def powerAux (m : Nat) (exp base res : Nat) : Nat :=
  if exp = 0 then res
  else powerAux m (exp / 2) (base * base % m)
    (if exp % 2 = 1 then res * base % m else res)
termination_by exp
decreasing_by exact Nat.div_lt_self (Nat.pos_of_ne_zero (by assumption)) one_lt_two

/-- `power(base, exp, mod)` from the source: binary exponentiation with
`res = 1n` and the initial reduction `base %= mod`. -/
def power (base exp m : Nat) : Nat :=
  powerAux m exp (base % m) 1

/-- The body of the `for (let i = 0; i < 30; i++)` loop of
`getConvergents`, with the loop counter as fuel and the mutable state
(`temp_c`, `temp_q`, `hn_2`, `hn_1`, `kn_2`, `kn_1`) as arguments. -/
def getConvergentsAux (q : Nat) : Nat → Nat → Nat → Nat → Nat → Nat → Nat → List Convergent
  | 0, _, _, _, _, _, _ => []
  | fuel + 1, tc, tq, hn2, hn1, kn2, kn1 =>
    if tq = 0 then []
    else
      let a := tc / tq
      let hn := a * hn1 + hn2
      let kn := a * kn1 + kn2
      if kn > q then []
      else ⟨a, hn, kn⟩ :: getConvergentsAux q fuel tq (tc % tq) hn1 hn kn1 kn

/-- `getConvergents(c, q)` from the source: continued-fraction expansion
of `c/q`, initial state `hn_2 = 0, hn_1 = 1, kn_2 = 1, kn_1 = 0`, at most
30 iterations. -/
def getConvergents (c q : Nat) : List Convergent :=
  getConvergentsAux q 30 c q 0 1 1 0

/-- The candidate-selection loop of `runShor`:
`for (const conv of convergents) if (conv.denominator > 0 && conv.denominator < N) candidateR = conv.denominator` —
each qualifying convergent overwrites the previous candidate. -/
def chooseCandidate (N : Nat) (convs : List Convergent) : Option Nat :=
  convs.foldl
    (fun cand conv =>
      if 0 < conv.denominator ∧ conv.denominator < N then some conv.denominator
      else cand)
    none

/-- The classical period-finding loop of `runShor`
(`let r = 1n; let val = a % N; while (val !== 1n) { val = val * a % N; r++ }`),
with explicit fuel.  `none` means the fuel ran out, which
`findPeriod_isSome` below shows never happens in a reachable state. -/
def periodLoop (a N : Nat) : Nat → Nat → Nat → Option Nat
  | 0, _, _ => none
  | fuel + 1, val, r => if val = 1 then some r else periodLoop a N fuel (val * a % N) (r + 1)

/-- The period of `a` modulo `N` as computed by the source loop, with fuel
`N` (sufficient: the loop exits after at most `totient N ≤ N` checks when
`gcd(a, N) = 1`). -/
def findPeriod (a N : Nat) : Option Nat :=
  periodLoop a N N (a % N) 1

/-- Error message thrown by `runShor` on invalid input. -/
def invalidInputMsg : String := "Input must be an odd integer greater than 1."

/-- Error message recorded when no convergent denominator qualifies. -/
def noPeriodMsg : String :=
  "Continued fraction expansion did not yield a suitable period candidate."

/-- Error message recorded when the candidate period is odd. -/
def oddPeriodMsg : String :=
  "The period \x27r\x27 is odd. A new base \x27a\x27 must be chosen."

/-- Error message recorded when `a^(r/2) ≡ -1 (mod N)` (kept byte-for-byte
from the source, including its mis-encoded `≡`). -/
def trivialResultMsg : String :=
  "a^(r/2) â‰¡ -1 (mod N). This gives a trivial factor. A new base \x27a\x27 must be chosen."

/-- Error message recorded when both derived factors are trivial. -/
def trivialFactorsMsg : String := "Calculated factors were trivial (1 or N)."

/-- The part of an attempt that follows the synthesized measurement
(source lines from `const convergents = getConvergents(c, q)` to the end
of the loop body): continued-fraction period recovery, verification and
factor extraction.  `rec2` is the record as already yielded with
`quantumResult` set; the result is the list of snapshots yielded after
`rec2` together with the session-termination flag (`true` iff the source
executes `return`). -/
def afterMeasurement (N a : Nat) (rec2 : ShorAttempt) (c q : Nat) :
    List ShorAttempt × Bool :=
  let convergents := getConvergents c q
  match chooseCandidate N convergents with
  | none => ([{ rec2 with status := .failed, error := some noPeriodMsg }], false)
  | some candidateR =>
    let rec3 := { rec2 with
                    fractionResult := some (convergents, candidateR)
                    period := some candidateR }
    let period := candidateR
    let isPeriodOdd : Bool := period % 2 != 0
    let isTrivial : Bool :=
      if isPeriodOdd then false else (power a (period / 2) N + 1) % N == 0
    let rec4 := { rec3 with verification := some (isPeriodOdd, isTrivial) }
    if isPeriodOdd then
      ([rec3, rec4, { rec4 with status := .failed, error := some oddPeriodMsg }], false)
    else if isTrivial then
      ([rec3, rec4, { rec4 with status := .failed, error := some trivialResultMsg }], false)
    else
      let term := power a (period / 2) N
      let p1 := gcd (term - 1) N
      let p2 := gcd (term + 1) N
      let rec5 := { rec4 with factorizationResult := some (term, p1, p2) }
      if 1 < p1 ∧ p1 < N then
        ([rec3, rec4, { rec5 with status := .success, factors := some (p1, N / p1) }], true)
      else if 1 < p2 ∧ p2 < N then
        ([rec3, rec4, { rec5 with status := .success, factors := some (p2, N / p2) }], true)
      else
        ([rec3, rec4, { rec5 with status := .failed, error := some trivialFactorsMsg }], false)

/-- One iteration of the `MAX_ATTEMPTS` loop of `runShor`: attempt number
`id`, raw base draw `rawA` (the base is `rawA + 2`), raw measurement draw
`rawS` (a function of the draw range `r - 1`).  Returns the snapshots
yielded during this attempt and the session-termination flag.  The
`findPeriod = none` branch is unreachable in reachable states (see
`findPeriod_isSome`); it truncates the attempt, which no theorem relies
on. -/
def runAttempt (N id rawA : Nat) (rawS : Nat → Nat) : List ShorAttempt × Bool :=
  let a := rawA + 2
  let rec0 : ShorAttempt := { id := id, n := N, a := a, status := .running }
  let commonDivisor := gcd a N
  let rec1 := { rec0 with gcdCheck := some commonDivisor }
  if 1 < commonDivisor then
    ([rec0, { rec1 with
                status := .success
                factors := some (commonDivisor, N / commonDivisor) }], true)
  else
    match findPeriod a N with
    | none => ([rec0, rec1], false)
    | some r =>
      let t := Nat.clog 2 (N * N)
      let q := 2 ^ t
      let s := rawS (r - 1) + 1
      let c := s * q / r
      let rec2 := { rec1 with quantumResult := some (c, q, t) }
      let step := afterMeasurement N a rec2 c q
      (rec0 :: rec1 :: rec2 :: step.1, step.2)

/-- The `for (let i = 0; i < MAX_ATTEMPTS; i++)` loop of `runShor`:
`fuel` is the number of remaining iterations, `i` the current loop index
(the attempt id is `i + 1`, since `attemptId` is incremented at the top of
the body). -/
def runShorLoop (N : Nat) (rngA : Nat → Nat) (rngS : Nat → Nat → Nat) :
    Nat → Nat → List ShorAttempt
  | 0, _ => []
  | fuel + 1, i =>
    let step := runAttempt N (i + 1) (rngA i) (rngS i)
    if step.2 then step.1 else step.1 ++ runShorLoop N rngA rngS fuel (i + 1)

/-- `runShor(N)` from the source: input validation
(`if (N <= 1n || N % 2n === 0n) throw ...`) followed by up to
`MAX_ATTEMPTS = 10` attempts.  `Except.error` models the thrown exception
(no snapshot is yielded), `Except.ok` the list of yielded snapshots. -/
def runShor (N : Nat) (rngA : Nat → Nat) (rngS : Nat → Nat → Nat) :
    Except String (List ShorAttempt) :=
  if N ≤ 1 ∨ N % 2 = 0 then .error invalidInputMsg
  else .ok (runShorLoop N rngA rngS 10 0)

/-! ### Claim C5: `getConvergents` against the spec's description

The spec describes the expansion as: take the Euclidean partial quotients
of `c/q`; build convergents `p_k/q_k` by
`p_k = a_k p_(k-1) + p_(k-2)` with seeds `p_(-1) = 1, p_(-2) = 0` and
`q_k = a_k q_(k-1) + q_(k-2)` with seeds `q_(-1) = 0, q_(-2) = 1`; halt
when the remainder reaches `0`, or when a computed denominator exceeds `q`
(discarding that convergent), or after at most 30 iterations.  The
definitions below follow those words; `claim_C5` proves the source
function equal to them. -/

/-- Spec-modelled: the Euclidean partial quotients of `x/y`, at most `cap`
of them, stopping when the remainder reaches `0`. -/
def euclidQuotients : Nat → Nat → Nat → List Nat
  | 0, _, _ => []
  | cap + 1, x, y => if y = 0 then [] else x / y :: euclidQuotients cap y (x % y)

/-- Spec-modelled: fold the standard recurrences over the partial
quotients, carrying `(p_(k-1), p_(k-2))` and `(q_(k-1), q_(k-2))`,
discarding the first convergent whose denominator exceeds `q` and halting
there. -/
def specConvergents (q : Nat) : List Nat → Nat × Nat → Nat × Nat → List Convergent
  | [], _, _ => []
  | ak :: rest, (p1, p2), (q1, q2) =>
    let pk := ak * p1 + p2
    let qk := ak * q1 + q2
    if q < qk then []
    else ⟨ak, pk, qk⟩ :: specConvergents q rest (pk, p1) (qk, q1)

/-- Spec-modelled continued-fraction expansion of `c/q`, with the spec's
seeds and the 30-iteration safety cap. -/
def cfSpec (c q : Nat) : List Convergent :=
  specConvergents q (euclidQuotients 30 c q) (1, 0) (0, 1)

/-- The denominators of a list of convergents, in order. -/
def denominators (l : List Convergent) : List Nat :=
  l.map (fun cv => cv.denominator)

/-- The relation claim C8 asserts between consecutive snapshots of a
session: either they belong to the same attempt, or the session moved to
the next attempt id and the earlier snapshot (the last of its attempt) was
terminal. -/
def nextRel (r1 r2 : ShorAttempt) : Prop :=
  r1.id = r2.id ∨ (r1.id + 1 = r2.id ∧ r1.status ≠ .running)

/-! ### A concrete session used by the witnesses

With both random draws pinned to `0`, factoring `15` picks base `2`
(period 4, measurement `c = 64`, `q = 256`) and succeeds on the first
attempt with factors `(3, 5)`; `session15` below computes the six yielded
snapshots. -/

/-- Witness random source for the base draws: always `0` (base `2`). -/
def rng0 : Nat → Nat := fun _ => 0

/-- Witness random source for the measurement draws: always `0`
(`s = 1`). -/
def rngS0 : Nat → Nat → Nat := fun _ _ => 0

/-- First snapshot of the witness session: attempt 1 starts. -/
def w0 : ShorAttempt := { id := 1, n := 15, a := 2, status := .running }

/-- Second snapshot: `gcd(2, 15) = 1` recorded. -/
def w1 : ShorAttempt := { w0 with gcdCheck := some 1 }

/-- Third snapshot: synthesized measurement `c = 64` on `q = 2^8`. -/
def w2 : ShorAttempt := { w1 with quantumResult := some (64, 256, 8) }

/-- The convergents of `64/256`. -/
def wconvs : List Convergent := [⟨0, 0, 1⟩, ⟨4, 1, 4⟩]

/-- Fourth snapshot: period candidate `4` from the expansion. -/
def w3 : ShorAttempt :=
  { w2 with fractionResult := some (wconvs, 4), period := some 4 }

/-- Fifth snapshot: verification — period even, not trivial. -/
def w4 : ShorAttempt := { w3 with verification := some (false, false) }

/-- Final snapshot: `term = 4`, factors `(3, 5)`, success. -/
def w5 : ShorAttempt :=
  { w4 with factorizationResult := some (4, 3, 5), status := .success,
            factors := some (3, 5) }

/-! ### Basic facts about the numeric kernel -/

/-- The source `gcd` agrees with `Nat.gcd` (arguments swapped, matching the
recursion pattern). -/
theorem gcd_eq_nat_gcd (a b : Nat) : gcd a b = Nat.gcd b a := by
  induction b using Nat.strong_induction_on generalizing a with
  | _ b ih =>
    rw [gcd]
    by_cases hb : b = 0
    · subst hb
      simp
    · rw [if_neg hb, ih (a % b) (Nat.mod_lt a (Nat.pos_of_ne_zero hb)) b,
        ← Nat.gcd_rec b a]

theorem gcd_dvd_right (a b : Nat) : gcd a b ∣ b := by
  rw [gcd_eq_nat_gcd]
  exact Nat.gcd_dvd_left b a

theorem gcd_dvd_left (a b : Nat) : gcd a b ∣ a := by
  rw [gcd_eq_nat_gcd]
  exact Nat.gcd_dvd_right b a

/-- The square-and-multiply loop computes `res * base ^ exp mod m` for any
positive exponent. -/
theorem powerAux_eq (m : Nat) :
    ∀ e, 1 ≤ e → ∀ b r, powerAux m e b r = r * b ^ e % m := by
  intro e
  induction e using Nat.strong_induction_on with
  | _ e ih =>
    intro he b r
    rw [powerAux, if_neg (by omega : ¬ e = 0)]
    by_cases h2 : e / 2 = 0
    · have he1 : e = 1 := by omega
      subst he1
      simp [powerAux, pow_one]
    · have hlt : e / 2 < e := Nat.div_lt_self (by omega) one_lt_two
      rw [ih (e / 2) hlt (Nat.pos_of_ne_zero h2)]
      have hsq : (b * b % m) ^ (e / 2) ≡ (b * b) ^ (e / 2) [MOD m] :=
        (Nat.mod_modEq (b * b) m).pow _
      by_cases hp : e % 2 = 1
      · rw [if_pos hp]
        have hek : 2 * (e / 2) + 1 = e := by omega
        have heq : r * b * (b * b) ^ (e / 2) = r * b ^ e := by
          conv_rhs => rw [← hek, pow_succ]
          rw [← pow_two, ← pow_mul]
          ring
        calc (r * b % m) * (b * b % m) ^ (e / 2) % m
            = r * b * (b * b) ^ (e / 2) % m := (Nat.mod_modEq (r * b) m).mul hsq
          _ = r * b ^ e % m := by rw [heq]
      · rw [if_neg hp]
        have hek : 2 * (e / 2) = e := by omega
        have heq : r * ((b * b) ^ (e / 2)) = r * b ^ e := by
          conv_rhs => rw [← hek]
          rw [← pow_two, ← pow_mul]
        calc r * (b * b % m) ^ (e / 2) % m
            = r * (b * b) ^ (e / 2) % m := (Nat.ModEq.refl r).mul hsq
          _ = r * b ^ e % m := by rw [heq]

/-- Behaviour of the source `power` away from the degenerate corner
`exp = 0 ∧ mod = 1`. -/
theorem power_eq (b e m : Nat) (h : 2 ≤ m ∨ 1 ≤ e) : power b e m = b ^ e % m := by
  rcases Nat.eq_zero_or_pos e with he | he
  · subst he
    have hm : 2 ≤ m := by omega
    rw [power, powerAux]
    simp [Nat.mod_eq_of_lt hm]
  · rw [power, powerAux_eq m e he, one_mul, ← Nat.pow_mod]

/-- Claim C6 (amended): `power(base, e, m)` returns `base ^ e mod m` with a
result `< m` whenever `m ≥ 2` or `e ≥ 1`; `power(a, 0, m) = 1 mod m` for
`m ≥ 2` and `power(a, e, 1) = 0` for `e ≥ 1`; but in the corner
`e = 0, m = 1` it returns `1`, not `0 = a^0 mod 1`. -/
theorem claim_C6 (base e m : Nat) (hm : 1 ≤ m) (h : 2 ≤ m ∨ 1 ≤ e) :
    power base e m = base ^ e % m ∧ power base e m < m ∧
    (2 ≤ m → power base 0 m = 1 % m) ∧
    (1 ≤ e → power base e 1 = 0) ∧
    power base 0 1 = 1 := by
  refine ⟨power_eq base e m h, ?_, ?_, ?_, ?_⟩
  · rw [power_eq base e m h]
    exact Nat.mod_lt _ (by omega)
  · intro hm2
    rw [power_eq base 0 m (Or.inl hm2), pow_zero]
  · intro he
    rw [power_eq base e 1 (Or.inr he)]
    exact Nat.mod_one _
  · rw [power, powerAux]
    simp

/-- Counterexample to claim C6 as stated: at `base = 2, e = 0, m = 1` the
source returns `1`, while the claim demands `modpow(a, e, 1) = 0`
(equivalently `base ^ e mod m`, which is `0` here). -/
theorem claim_C6_counterexample :
    power 2 0 1 = 1 ∧ power 2 0 1 ≠ 0 ∧ (2 : Nat) ^ 0 % 1 = 0 := by
  have h1 : power 2 0 1 = 1 := by
    rw [power, powerAux]
    simp
  exact ⟨h1, by rw [h1]; omega, rfl⟩

/-- Witness for claim C6 at `base = 2, e = 3, m = 5` (and the side cases at
`(7, 0, 9)`, `(4, 2, 1)`). -/
theorem claim_C6_witness :
    power 2 3 5 = 2 ^ 3 % 5 ∧ power 2 3 5 < 5 ∧
    power 7 0 9 = 1 % 9 ∧ power 4 2 1 = 0 ∧ power 9 0 1 = 1 := by
  refine ⟨(claim_C6 2 3 5 (by omega) (Or.inr (by omega))).1,
    (claim_C6 2 3 5 (by omega) (Or.inr (by omega))).2.1,
    (claim_C6 7 0 9 (by omega) (Or.inl (by omega))).2.2.1 (by omega),
    (claim_C6 4 2 1 (by omega) (Or.inr (by omega))).2.2.2.1 (by omega),
    (claim_C6 9 5 1 (by omega) (Or.inr (by omega))).2.2.2.2⟩

theorem getConvergentsAux_eq_spec (q : Nat) :
    ∀ fuel tc tq hn2 hn1 kn2 kn1,
      getConvergentsAux q fuel tc tq hn2 hn1 kn2 kn1 =
        specConvergents q (euclidQuotients fuel tc tq) (hn1, hn2) (kn1, kn2) := by
  intro fuel
  induction fuel with
  | zero => intro tc tq hn2 hn1 kn2 kn1; rfl
  | succ fuel ih =>
    intro tc tq hn2 hn1 kn2 kn1
    rw [getConvergentsAux, euclidQuotients]
    by_cases htq : tq = 0
    · simp [htq, specConvergents]
    · rw [if_neg htq, if_neg htq, specConvergents]
      simp only
      by_cases hkn : tc / tq * kn1 + kn2 > q
      · rw [if_pos hkn, if_pos (by omega : q < tc / tq * kn1 + kn2)]
      · rw [if_neg hkn, if_neg (by omega : ¬ q < tc / tq * kn1 + kn2), ih]

/-- Claim C5: the source `getConvergents` computes exactly the expansion
described by the spec — Euclidean partial quotients of `c/q`, the standard
convergent recurrences with seeds `p_(-1) = 1, p_(-2) = 0`,
`q_(-1) = 0, q_(-2) = 1`, halting on zero remainder, on a denominator
exceeding `q` (that convergent discarded), or after 30 iterations. -/
theorem claim_C5 : ∀ c q : Nat, getConvergents c q = cfSpec c q := by
  intro c q
  rw [getConvergents, cfSpec, getConvergentsAux_eq_spec]

/-! ### Claim C7: monotonicity of the convergent denominators -/

theorem getConvergentsAux_step (q fuel tc tq hn2 hn1 kn2 kn1 : Nat)
    (htq : ¬ tq = 0) (hkn : ¬ tc / tq * kn1 + kn2 > q) :
    getConvergentsAux q (fuel + 1) tc tq hn2 hn1 kn2 kn1 =
      ⟨tc / tq, tc / tq * hn1 + hn2, tc / tq * kn1 + kn2⟩ ::
        getConvergentsAux q fuel tq (tc % tq) hn1 (tc / tq * hn1 + hn2)
          kn1 (tc / tq * kn1 + kn2) := by
  rw [getConvergentsAux, if_neg htq]
  exact if_neg hkn

theorem getConvergentsAux_stop (q fuel tc tq hn2 hn1 kn2 kn1 : Nat)
    (htq : ¬ tq = 0) (hkn : tc / tq * kn1 + kn2 > q) :
    getConvergentsAux q (fuel + 1) tc tq hn2 hn1 kn2 kn1 = [] := by
  rw [getConvergentsAux, if_neg htq]
  exact if_pos hkn

theorem getConvergentsAux_zero (q fuel tc hn2 hn1 kn2 kn1 : Nat) :
    getConvergentsAux q (fuel + 1) tc 0 hn2 hn1 kn2 kn1 = [] := by
  rw [getConvergentsAux]
  exact if_pos rfl

/-- Once the expansion state satisfies `1 ≤ kn2 ≤ kn1` and `tq < tc` (true
from the third iteration on), every further denominator strictly exceeds
the previous one. -/
theorem chain_lt_getConvergentsAux (q : Nat) :
    ∀ fuel tc tq hn2 hn1 kn2 kn1, 1 ≤ kn2 → kn2 ≤ kn1 → tq < tc →
      List.Chain' (fun x y => x < y)
        (kn1 :: denominators (getConvergentsAux q fuel tc tq hn2 hn1 kn2 kn1)) := by
  intro fuel
  induction fuel with
  | zero =>
    intro tc tq hn2 hn1 kn2 kn1 _ _ _
    simp [getConvergentsAux, denominators]
  | succ fuel ih =>
    intro tc tq hn2 hn1 kn2 kn1 h2 h21 htc
    by_cases htq : tq = 0
    · subst htq
      simp [getConvergentsAux_zero, denominators]
    · have ha : 1 ≤ tc / tq :=
        (Nat.one_le_div_iff (Nat.pos_of_ne_zero htq)).2 (Nat.le_of_lt htc)
      have hk : kn1 < tc / tq * kn1 + kn2 := by
        have := Nat.le_mul_of_pos_left kn1 (show 0 < tc / tq from ha)
        omega
      by_cases hkn : tc / tq * kn1 + kn2 > q
      · rw [getConvergentsAux_stop q fuel tc tq hn2 hn1 kn2 kn1 htq hkn]
        simp [denominators]
      · rw [getConvergentsAux_step q fuel tc tq hn2 hn1 kn2 kn1 htq hkn]
        rw [denominators, List.map_cons, List.chain'_cons]
        exact ⟨hk, ih tq (tc % tq) hn1 _ kn1 _ (by omega) (Nat.le_of_lt hk)
          (Nat.mod_lt tc (Nat.pos_of_ne_zero htq))⟩

/-- Counterexample to claim C7 as stated: for `c = 2, q = 3` (which satisfy
`c ≥ 0`, `q ≥ 1`) the returned denominators are `[1, 1, 3]`, which is not
strictly increasing. -/
theorem claim_C7_counterexample :
    denominators (getConvergents 2 3) = [1, 1, 3] ∧
    ¬ List.Chain' (fun x y => x < y) (denominators (getConvergents 2 3)) := by
  have h : denominators (getConvergents 2 3) = [1, 1, 3] := by
    simp [denominators, getConvergents, getConvergentsAux]
  refine ⟨h, ?_⟩
  rw [h]
  simp [List.chain'_cons]

/-- Claim C7 (amended): for `q ≥ 1` the denominator list is non-decreasing
throughout, and strictly increasing from the second element on; only the
first two denominators can coincide (both are then `1`). -/
theorem claim_C7_amended (c q : Nat) (hq : 1 ≤ q) :
    List.Chain' (fun x y => x ≤ y) (denominators (getConvergents c q)) ∧
    List.Chain' (fun x y => x < y) (List.tail (denominators (getConvergents c q))) := by
  have hq0 : ¬ q = 0 := by omega
  have h1 : ¬ c / q * 0 + 1 > q := by omega
  rw [getConvergents, getConvergentsAux_step q 29 c q 0 1 1 0 hq0 h1]
  simp only [Nat.mul_zero, Nat.zero_add, Nat.mul_one, Nat.add_zero]
  by_cases hr : c % q = 0
  · rw [hr, getConvergentsAux_zero]
    simp [denominators]
  · have h2 : ¬ q / (c % q) * 1 + 0 > q := by
      have := Nat.div_le_self q (c % q)
      omega
    rw [getConvergentsAux_step q 28 q (c % q) 1 (c / q) 0 1 hr h2]
    simp only [Nat.mul_one, Nat.add_zero]
    have ha1 : 1 ≤ q / (c % q) :=
      (Nat.one_le_div_iff (Nat.pos_of_ne_zero hr)).2
        (Nat.le_of_lt (Nat.mod_lt c (Nat.pos_of_ne_zero hq0)))
    have hchain := chain_lt_getConvergentsAux q 28 (c % q) (q % (c % q))
      (c / q) (q / (c % q) * (c / q) + 1) 1 (q / (c % q)) (by omega) ha1
      (Nat.mod_lt q (Nat.pos_of_ne_zero hr))
    constructor
    · rw [denominators, List.map_cons, List.map_cons, List.chain'_cons]
      refine ⟨ha1, ?_⟩
      refine List.Chain'.imp (fun a b hab => Nat.le_of_lt hab) ?_
      rw [denominators] at hchain
      exact hchain
    · rw [denominators, List.map_cons, List.map_cons, List.tail_cons]
      rw [denominators] at hchain
      exact hchain

/-- Witness for the amended claim C7 at `c = 2, q = 3`. -/
theorem claim_C7_witness :
    List.Chain' (fun x y => x ≤ y) (denominators (getConvergents 2 3)) ∧
    List.Chain' (fun x y => x < y) (List.tail (denominators (getConvergents 2 3))) :=
  claim_C7_amended 2 3 (by omega)

/-! ### Claim C9: termination of the classical period-finding loop -/

/-- If some later power of `a` reduces to `1` within the remaining fuel,
the loop succeeds and never returns an earlier index. -/
theorem periodLoop_reaches (a N : Nat) :
    ∀ fuel r, (∃ k, k < fuel ∧ a ^ (r + k) % N = 1) →
      ∃ rr, periodLoop a N fuel (a ^ r % N) r = some rr ∧ r ≤ rr := by
  intro fuel
  induction fuel with
  | zero =>
    intro r ⟨k, hk, _⟩
    omega
  | succ fuel ih =>
    intro r ⟨k, hk, hpow⟩
    rw [periodLoop]
    by_cases hv : a ^ r % N = 1
    · rw [if_pos hv]
      exact ⟨r, rfl, Nat.le_refl r⟩
    · rw [if_neg hv]
      have hk0 : k ≠ 0 := by
        intro h0
        rw [h0, Nat.add_zero] at hpow
        exact hv hpow
      have hval : a ^ r % N * a % N = a ^ (r + 1) % N := by
        rw [Nat.mod_mul_mod, ← pow_succ]
      rw [hval]
      obtain ⟨rr, heq, hle⟩ := ih (r + 1)
        ⟨k - 1, by omega, by rw [show r + 1 + (k - 1) = r + k by omega]; exact hpow⟩
      exact ⟨rr, heq, by omega⟩

/-- Euler's theorem, in the `% N` form used below. -/
theorem pow_totient_mod (a N : Nat) (hN : 2 ≤ N) (hcop : Nat.gcd a N = 1) :
    a ^ N.totient % N = 1 := by
  have h := Nat.ModEq.pow_totient (show Nat.Coprime a N from hcop)
  rwa [Nat.ModEq, Nat.mod_eq_of_lt (show 1 < N by omega)] at h

/-- The fuel `N` given to the period loop is always sufficient when
`gcd(a, N) = 1` and `N ≥ 2`: the source's `while` loop terminates. -/
theorem findPeriod_isSome (a N : Nat) (hN : 2 ≤ N) (hcop : Nat.gcd a N = 1) :
    ∃ r, findPeriod a N = some r ∧ 1 ≤ r := by
  have hφN : N.totient ≤ N := Nat.totient_le N
  have hφ1 : 0 < N.totient := Nat.totient_pos.2 (by omega)
  have heu := pow_totient_mod a N hN hcop
  have h := periodLoop_reaches a N N 1
    ⟨N.totient - 1, by omega, by
      rw [show 1 + (N.totient - 1) = N.totient by omega]; exact heu⟩
  rw [findPeriod, show a % N = a ^ 1 % N by rw [pow_one]]
  obtain ⟨r, hr, hle⟩ := h
  exact ⟨r, hr, hle⟩

/-- When additionally `a mod N ≠ 1`, the loop runs at least one iteration,
so the period it reports is at least `2`. -/
theorem findPeriod_two_le (a N : Nat) (hN : 2 ≤ N) (hcop : Nat.gcd a N = 1)
    (hne : a % N ≠ 1) : ∃ r, findPeriod a N = some r ∧ 2 ≤ r := by
  have heu := pow_totient_mod a N hN hcop
  obtain ⟨e, he2, heN, hee⟩ : ∃ e, 2 ≤ e ∧ e ≤ N ∧ a ^ e % N = 1 := by
    by_cases hφ : N.totient = 1
    · rw [hφ, pow_one] at heu
      exact absurd heu hne
    · have hφ1 : 0 < N.totient := Nat.totient_pos.2 (by omega)
      exact ⟨N.totient, by omega, Nat.totient_le N, heu⟩
  obtain ⟨M, rfl⟩ : ∃ M, N = M + 1 := ⟨N - 1, by omega⟩
  rw [findPeriod, periodLoop, if_neg hne]
  have hval : a % (M + 1) * a % (M + 1) = a ^ 2 % (M + 1) := by
    rw [Nat.mod_mul_mod, pow_two]
  rw [hval]
  obtain ⟨rr, heq, hle⟩ := periodLoop_reaches a (M + 1) M 2
    ⟨e - 2, by omega, by rw [show 2 + (e - 2) = e by omega]; exact hee⟩
  exact ⟨rr, heq, hle⟩

/-- Claim C9: for odd `n > 1` and a base `2 ≤ base ≤ n - 1` coprime to
`n`, the classical period-finding loop terminates (the fuel `n` is never
exhausted) with a period `r ≥ 2`, so the synthetic-measurement draw range
`[1, r-1]` is non-empty. -/
theorem claim_C9 (n base : Nat) (hodd : n % 2 = 1) (hn : 1 < n)
    (hb2 : 2 ≤ base) (hbn : base ≤ n - 1) (hcop : Nat.gcd base n = 1) :
    findPeriod base n ≠ none ∧ 2 ≤ (findPeriod base n).getD 0 ∧
      1 ≤ (findPeriod base n).getD 0 - 1 := by
  have hne : base % n ≠ 1 := by
    rw [Nat.mod_eq_of_lt (show base < n by omega)]
    omega
  obtain ⟨r, hr, h2⟩ := findPeriod_two_le base n (by omega) hcop hne
  rw [hr]
  exact ⟨by simp, by simpa using h2, by simp; omega⟩

/-- Witness for claim C9 at `n = 15, base = 2` (true period 4). -/
theorem claim_C9_witness :
    findPeriod 2 15 ≠ none ∧ 2 ≤ (findPeriod 2 15).getD 0 ∧
      1 ≤ (findPeriod 2 15).getD 0 - 1 :=
  claim_C9 15 2 (by omega) (by omega) (by omega) (by omega) (by simp [Nat.gcd])

/-! ### Attempt-level record invariants -/

/-- A divisor `g` of `N` with `1 < g < N` has a cofactor `N / g` that is
also non-trivial, and the product recovers `N` exactly. -/
theorem cofactor_bounds (g N : Nat) (hdvd : g ∣ N) (h1 : 1 < g) (h2 : g < N) :
    g * (N / g) = N ∧ 1 < N / g ∧ N / g < N := by
  have hN : 0 < N := by omega
  have hmul : g * (N / g) = N := Nat.mul_div_cancel' hdvd
  refine ⟨hmul, ?_, Nat.div_lt_self hN h1⟩
  have h01 : ∀ x : Nat, x = 0 ∨ x = 1 ∨ 1 < x := fun x => by omega
  rcases h01 (N / g) with h0 | h1' | h
  · rw [h0, Nat.mul_zero] at hmul
    omega
  · rw [h1', Nat.mul_one] at hmul
    omega
  · exact h

/-- Every snapshot yielded after the measurement satisfies the
status/field correspondence of claim C1: `factors` present iff `success`,
`error` present iff `failed`, `n` preserved, and any recorded factor pair
multiplies to `N`. -/
theorem afterMeasurement_C1 (N a : Nat) (rec2 : ShorAttempt) (c q : Nat)
    (hst : rec2.status = .running) (hf : rec2.factors = none)
    (he : rec2.error = none) (hn : rec2.n = N) :
    ∀ r ∈ (afterMeasurement N a rec2 c q).1,
      (r.factors.isSome ↔ r.status = .success) ∧
      (r.error.isSome ↔ r.status = .failed) ∧
      r.n = N ∧
      (∀ f, r.factors = some f → f.1 * f.2 = N) := by
  intro r hr
  rw [afterMeasurement] at hr
  rcases hcc : chooseCandidate N (getConvergents c q) with _ | cr
  · rw [hcc] at hr
    simp only [List.mem_singleton] at hr
    subst hr
    simp [hst, hf, he, hn]
  · rw [hcc] at hr
    by_cases hodd : cr % 2 = 0
    · by_cases htriv : (power a (cr / 2) N + 1) % N = 0
      · simp [hodd, htriv] at hr
        rcases hr with rfl | rfl | rfl
        all_goals simp [hst, hf, he, hn]
      · by_cases hp1 : 1 < gcd (power a (cr / 2) N - 1) N ∧
            gcd (power a (cr / 2) N - 1) N < N
        · simp [hodd, htriv, hp1] at hr
          rcases hr with rfl | rfl | rfl
          · simp [hst, hf, he, hn]
          · simp [hst, hf, he, hn]
          · refine ⟨by simp, by simp [he], by simp [hn], ?_⟩
            intro f hf'
            simp only [Option.some_inj] at hf'
            subst hf'
            exact (cofactor_bounds _ N (gcd_dvd_right _ N) hp1.1 hp1.2).1
        · by_cases hp2 : 1 < gcd (power a (cr / 2) N + 1) N ∧
              gcd (power a (cr / 2) N + 1) N < N
          · simp [hodd, htriv, hp1, hp2] at hr
            rcases hr with rfl | rfl | rfl
            · simp [hst, hf, he, hn]
            · simp [hst, hf, he, hn]
            · refine ⟨by simp, by simp [he], by simp [hn], ?_⟩
              intro f hf'
              simp only [Option.some_inj] at hf'
              subst hf'
              exact (cofactor_bounds _ N (gcd_dvd_right _ N) hp2.1 hp2.2).1
          · simp [hodd, htriv, hp1, hp2] at hr
            rcases hr with rfl | rfl | rfl
            all_goals simp [hst, hf, he, hn]
    · have hodd1 : cr % 2 = 1 := by omega
      simp [hodd1] at hr
      rcases hr with rfl | rfl | rfl
      all_goals simp [hst, hf, he, hn]

/-- The full witness session: factoring `15` with all draws pinned to `0`
succeeds at the first attempt with factors `(3, 5)`. -/
theorem session15 : runShor 15 rng0 rngS0 = .ok [w0, w1, w2, w3, w4, w5] := by
  simp [runShor, runShorLoop, runAttempt, afterMeasurement, getConvergents,
    getConvergentsAux, chooseCandidate, findPeriod, periodLoop, power, powerAux,
    gcd, Nat.clog, rng0, rngS0, w0, w1, w2, w3, w4, w5, wconvs]

/-- Claim C1 field correspondence, at the level of a single attempt: holds
for every snapshot the attempt yields, with no reachability hypotheses. -/
theorem runAttempt_C1 (N id rawA : Nat) (rawS : Nat → Nat) :
    ∀ r ∈ (runAttempt N id rawA rawS).1,
      (r.factors.isSome ↔ r.status = .success) ∧
      (r.error.isSome ↔ r.status = .failed) ∧
      r.n = N ∧
      (∀ f, r.factors = some f → f.1 * f.2 = N) := by
  intro r hr
  rw [runAttempt] at hr
  by_cases hg : 1 < gcd (rawA + 2) N
  · simp [hg] at hr
    rcases hr with rfl | rfl
    · simp
    · refine ⟨by simp, by simp, by simp, ?_⟩
      intro f hf'
      simp only [Option.some_inj] at hf'
      subst hf'
      exact Nat.mul_div_cancel' (gcd_dvd_right _ N)
  · rcases hfp : findPeriod (rawA + 2) N with _ | rr
    · simp [hg, hfp] at hr
      rcases hr with rfl | rfl
      all_goals simp
    · simp [hg, hfp] at hr
      rcases hr with rfl | rfl | rfl | hr
      · simp
      · simp
      · simp
      · exact afterMeasurement_C1 N (rawA + 2) _ _ _ (by simp) (by simp) (by simp)
          (by simp) r hr

/-- Claim C1 field correspondence, propagated through the attempt loop. -/
theorem runShorLoop_C1 (N : Nat) (rngA : Nat → Nat) (rngS : Nat → Nat → Nat) :
    ∀ fuel i, ∀ r ∈ runShorLoop N rngA rngS fuel i,
      (r.factors.isSome ↔ r.status = .success) ∧
      (r.error.isSome ↔ r.status = .failed) ∧
      r.n = N ∧
      (∀ f, r.factors = some f → f.1 * f.2 = N) := by
  intro fuel
  induction fuel with
  | zero =>
    intro i r hr
    simp [runShorLoop] at hr
  | succ fuel ih =>
    intro i r hr
    rw [runShorLoop] at hr
    by_cases hdone : (runAttempt N (i + 1) (rngA i) (rngS i)).2 = true
    · simp only [hdone, if_true] at hr
      exact runAttempt_C1 N (i + 1) (rngA i) (rngS i) r hr
    · simp only [hdone, if_false, Bool.false_eq_true] at hr
      rcases List.mem_append.1 hr with hr | hr
      · exact runAttempt_C1 N (i + 1) (rngA i) (rngS i) r hr
      · exact ih (i + 1) r hr

/-- Claim C1: in every snapshot yielded by `runShor`, `factors` is present
iff `status = success`, `error` is present iff `status = failed`, and any
present factor pair multiplies to exactly `n`. -/
theorem claim_C1 (N : Nat) (rngA : Nat → Nat) (rngS : Nat → Nat → Nat)
    (recs : List ShorAttempt) (hok : runShor N rngA rngS = Except.ok recs) :
    ∀ rec ∈ recs,
      (rec.factors.isSome ↔ rec.status = .success) ∧
      (rec.error.isSome ↔ rec.status = .failed) ∧
      rec.n = N ∧
      (∀ f, rec.factors = some f → f.1 * f.2 = N) := by
  rw [runShor] at hok
  by_cases hv : N ≤ 1 ∨ N % 2 = 0
  · rw [if_pos hv] at hok
    exact absurd hok (by simp)
  · rw [if_neg hv] at hok
    injection hok with hok
    subst hok
    intro rec hrec
    exact runShorLoop_C1 N rngA rngS 10 0 rec hrec

/-- Witness for claim C1: the success snapshot of the concrete session on
`N = 15`. -/
theorem claim_C1_witness :
    (w5.factors.isSome ↔ w5.status = .success) ∧
    (w5.error.isSome ↔ w5.status = .failed) ∧
    w5.n = 15 ∧
    (∀ f, w5.factors = some f → f.1 * f.2 = 15) :=
  claim_C1 15 rng0 rngS0 [w0, w1, w2, w3, w4, w5] session15 w5 (by simp)

/-- Whatever branch an attempt takes, its first yielded snapshot is the
freshly created record: only `id`, `n`, `base` populated, `status =
running`. -/
theorem runAttempt_head (N id rawA : Nat) (rawS : Nat → Nat) :
    ((runAttempt N id rawA rawS).1).head? =
      some { id := id, n := N, a := rawA + 2, status := .running } := by
  rw [runAttempt]
  by_cases hg : 1 < gcd (rawA + 2) N
  · simp [hg]
  · rcases hfp : findPeriod (rawA + 2) N with _ | rr
    · simp [hg, hfp]
    · simp [hg, hfp]

/-- The first snapshot of the remaining session is the first snapshot of
the next attempt. -/
theorem runShorLoop_head (N : Nat) (rngA : Nat → Nat) (rngS : Nat → Nat → Nat)
    (fuel i : Nat) :
    (runShorLoop N rngA rngS (fuel + 1) i).head? =
      some { id := i + 1, n := N, a := rngA i + 2, status := .running } := by
  rw [runShorLoop]
  by_cases hdone : (runAttempt N (i + 1) (rngA i) (rngS i)).2 = true
  · simp only [hdone, if_true]
    exact runAttempt_head N (i + 1) (rngA i) (rngS i)
  · simp only [hdone, if_false, Bool.false_eq_true]
    have hh := runAttempt_head N (i + 1) (rngA i) (rngS i)
    cases hl : (runAttempt N (i + 1) (rngA i) (rngS i)).1 with
    | nil => rw [hl] at hh; exact absurd hh (by simp)
    | cons x tl =>
      rw [hl] at hh
      simp only [List.head?_cons, Option.some_inj] at hh
      rw [List.cons_append, List.head?_cons, hh]

/-- Claim C2: for `N ≤ 1` or even `N`, `runShor` signals the
invalid-input error with zero snapshots yielded; for odd `N > 1` it
returns normally, and the first snapshot is attempt 1 starting. -/
theorem claim_C2 (N : Nat) (rngA : Nat → Nat) (rngS : Nat → Nat → Nat) :
    (N ≤ 1 ∨ N % 2 = 0 → runShor N rngA rngS = Except.error invalidInputMsg) ∧
    (1 < N → N % 2 = 1 →
      runShor N rngA rngS = Except.ok (runShorLoop N rngA rngS 10 0) ∧
      (runShorLoop N rngA rngS 10 0).head? =
        some { id := 1, n := N, a := rngA 0 + 2, status := .running }) := by
  constructor
  · intro h
    rw [runShor, if_pos h]
  · intro h1 h2
    have hv : ¬ (N ≤ 1 ∨ N % 2 = 0) := by omega
    exact ⟨by rw [runShor, if_neg hv], runShorLoop_head N rngA rngS 9 0⟩

/-- Witness for claim C2: even input `10` is rejected with no snapshots;
odd input `15` starts attempt 1 with base `2`. -/
theorem claim_C2_witness :
    runShor 10 rng0 rngS0 = Except.error invalidInputMsg ∧
    runShor 15 rng0 rngS0 = Except.ok (runShorLoop 15 rng0 rngS0 10 0) ∧
    (runShorLoop 15 rng0 rngS0 10 0).head? =
      some { id := 1, n := 15, a := rng0 0 + 2, status := .running } :=
  ⟨(claim_C2 10 rng0 rngS0).1 (by omega),
   (claim_C2 15 rng0 rngS0).2 (by omega) (by omega)⟩

/-- Claim C3: an attempt whose base shares a factor `g > 1` with `N`
yields exactly two snapshots — the start snapshot and the finalized
success snapshot with `factors = (g, N / g)` — reports the session as
terminated, and the loop then produces no further attempts. -/
theorem claim_C3 (N id rawA : Nat) (rawS : Nat → Nat)
    (hg : 1 < gcd (rawA + 2) N) :
    (runAttempt N id rawA rawS).1 =
      [{ id := id, n := N, a := rawA + 2, status := .running },
       { id := id, n := N, a := rawA + 2, status := .success,
         gcdCheck := some (gcd (rawA + 2) N),
         factors := some (gcd (rawA + 2) N, N / gcd (rawA + 2) N) }] ∧
    (runAttempt N id rawA rawS).2 = true ∧
    (∀ rngA : Nat → Nat, ∀ rngS : Nat → Nat → Nat, ∀ fuel i : Nat,
      rngA i = rawA → rngS i = rawS →
      runShorLoop N rngA rngS (fuel + 1) i = (runAttempt N (i + 1) rawA rawS).1) := by
  refine ⟨?_, ?_, ?_⟩
  · rw [runAttempt]
    simp [hg]
  · rw [runAttempt]
    simp [hg]
  · intro rngA rngS fuel i hA hS
    rw [runShorLoop, hA, hS]
    have hdone : (runAttempt N (i + 1) rawA rawS).2 = true := by
      rw [runAttempt]
      simp [hg]
    simp only [hdone, if_true]

/-- Witness for claim C3 at `N = 15`, raw draw `1` (base `3`,
`gcd(3, 15) = 3`). -/
theorem claim_C3_witness :
    (runAttempt 15 1 1 rng0).1 =
      [{ id := 1, n := 15, a := 1 + 2, status := .running },
       { id := 1, n := 15, a := 1 + 2, status := .success,
         gcdCheck := some (gcd (1 + 2) 15),
         factors := some (gcd (1 + 2) 15, 15 / gcd (1 + 2) 15) }] ∧
    (runAttempt 15 1 1 rng0).2 = true :=
  ⟨(claim_C3 15 1 1 rng0 (by simp [gcd])).1,
   (claim_C3 15 1 1 rng0 (by simp [gcd])).2.1⟩

/-- The selection loop keeps the last qualifying convergent: it equals the
first qualifying element of the reversed list. -/
theorem chooseCandidate_eq_last (M : Nat) (l : List Convergent) :
    chooseCandidate M l =
      (l.reverse.find? fun cv => decide (0 < cv.denominator ∧ cv.denominator < M)).map
        (fun cv => cv.denominator) := by
  induction l using List.reverseRecOn with
  | nil => rfl
  | append_singleton l x ih =>
    rw [chooseCandidate, List.foldl_append, List.reverse_append]
    by_cases hx : 0 < x.denominator ∧ x.denominator < M
    · simp [hx]
    · simp only [List.foldl_cons, List.foldl_nil, if_neg hx, List.reverse_singleton,
        List.singleton_append, List.find?_cons, decide_eq_true_eq]
      rw [decide_eq_false hx]
      exact ih

/-- The no-candidate branch: the attempt is finalized `failed` with the
no-period-candidate error as its only further snapshot, and the
session-termination flag is `false`. -/
theorem afterMeasurement_noCandidate (N a : Nat) (rec2 : ShorAttempt) (c q : Nat)
    (hnone : chooseCandidate N (getConvergents c q) = none) :
    afterMeasurement N a rec2 c q =
      ([{ rec2 with status := .failed, error := some noPeriodMsg }], false) := by
  rw [afterMeasurement, hnone]

/-- An attempt that does not terminate the session is followed by the
remaining attempts. -/
theorem runShorLoop_continue (N : Nat) (rngA : Nat → Nat) (rngS : Nat → Nat → Nat)
    (fuel i : Nat) (h : (runAttempt N (i + 1) (rngA i) (rngS i)).2 = false) :
    runShorLoop N rngA rngS (fuel + 1) i =
      (runAttempt N (i + 1) (rngA i) (rngS i)).1 ++
        runShorLoop N rngA rngS fuel (i + 1) := by
  rw [runShorLoop]
  simp only [h, Bool.false_eq_true, if_false]

/-- Claim C4: the period candidate is the last convergent (in expansion
order) whose denominator `d` satisfies `0 < d < N` — the first qualifying
element of the reversed list — and when no convergent qualifies the
attempt is finalized `failed` with the no-candidate error, the
session-termination flag stays `false`, and the loop proceeds to the next
attempt. -/
theorem claim_C4 (N a c q : Nat) (rec2 : ShorAttempt)
    (hnone : chooseCandidate N (getConvergents c q) = none) :
    (∀ M : Nat, ∀ l : List Convergent,
      chooseCandidate M l =
        (l.reverse.find? fun cv => decide (0 < cv.denominator ∧ cv.denominator < M)).map
          (fun cv => cv.denominator)) ∧
    afterMeasurement N a rec2 c q =
      ([{ rec2 with status := .failed, error := some noPeriodMsg }], false) ∧
    (∀ rngA : Nat → Nat, ∀ rngS : Nat → Nat → Nat, ∀ fuel i : Nat,
      (runAttempt N (i + 1) (rngA i) (rngS i)).2 = false →
      runShorLoop N rngA rngS (fuel + 1) i =
        (runAttempt N (i + 1) (rngA i) (rngS i)).1 ++
          runShorLoop N rngA rngS fuel (i + 1)) :=
  ⟨chooseCandidate_eq_last,
   afterMeasurement_noCandidate N a rec2 c q hnone,
   fun rngA rngS fuel i h => runShorLoop_continue N rngA rngS fuel i h⟩

/-- Witness for claim C4: with measurement data `c = 0, q = 0` the
expansion is empty, no candidate exists, and the attempt is finalized with
the no-candidate error without terminating the session. -/
theorem claim_C4_witness :
    afterMeasurement 15 2 w2 0 0 =
      ([{ w2 with status := .failed, error := some noPeriodMsg }], false) :=
  (claim_C4 15 2 0 0 w2 (by rfl)).2.1

/-- Structure of the post-measurement snapshots: they form a list of
still-`running` intermediate snapshots followed by exactly one terminal
snapshot; the terminal snapshot is `success` precisely when the
session-termination flag is set, and a `success` terminal snapshot carries
a non-trivial factor pair multiplying to `N`. -/
theorem afterMeasurement_spec (N a : Nat) (rec2 : ShorAttempt) (c q : Nat) :
    ∃ pre last,
      (afterMeasurement N a rec2 c q).1 = pre ++ [last] ∧
      (∀ r ∈ pre, r.id = rec2.id ∧ r.n = rec2.n ∧ r.status = rec2.status) ∧
      last.id = rec2.id ∧ last.n = rec2.n ∧
      ((afterMeasurement N a rec2 c q).2 = true ↔ last.status = .success) ∧
      (last.status = .success ∨ last.status = .failed) ∧
      (last.status = .success →
        ∃ f, last.factors = some f ∧ f.1 * f.2 = N ∧ 1 < f.1 ∧ f.1 < N ∧
          1 < f.2 ∧ f.2 < N) := by
  rcases hcc : chooseCandidate N (getConvergents c q) with _ | cr
  · refine ⟨[], { rec2 with status := .failed, error := some noPeriodMsg },
      ?_, by simp, by simp, by simp, ?_, by simp, by simp⟩
    · rw [afterMeasurement_noCandidate N a rec2 c q hcc]
      rfl
    · rw [afterMeasurement_noCandidate N a rec2 c q hcc]
      simp
  · by_cases hodd : cr % 2 = 0
    · by_cases htriv : (power a (cr / 2) N + 1) % N = 0
      · refine ⟨[{ rec2 with
                   fractionResult := some (getConvergents c q, cr)
                   period := some cr },
                 { rec2 with
                   fractionResult := some (getConvergents c q, cr)
                   period := some cr
                   verification := some (false, true) }],
                { rec2 with
                  fractionResult := some (getConvergents c q, cr)
                  period := some cr
                  verification := some (false, true)
                  status := .failed
                  error := some trivialResultMsg },
                ?_, ?_, by simp, by simp, ?_, by simp, by simp⟩
        · rw [afterMeasurement, hcc]
          simp [hodd, htriv]
        · intro r hr
          simp only [List.mem_cons, List.mem_singleton, List.not_mem_nil, or_false] at hr
          rcases hr with rfl | rfl
          all_goals simp
        · rw [afterMeasurement, hcc]
          simp [hodd, htriv]
      · by_cases hp1 : 1 < gcd (power a (cr / 2) N - 1) N ∧
            gcd (power a (cr / 2) N - 1) N < N
        · refine ⟨[{ rec2 with
                   fractionResult := some (getConvergents c q, cr)
                   period := some cr },
                   { rec2 with
                   fractionResult := some (getConvergents c q, cr)
                   period := some cr
                   verification := some (false, false) }],
                  { rec2 with
                  fractionResult := some (getConvergents c q, cr)
                  period := some cr
                  verification := some (false, false)
                  factorizationResult := some (power a (cr / 2) N,
                    gcd (power a (cr / 2) N - 1) N, gcd (power a (cr / 2) N + 1) N)
                  status := .success
                  factors := some (gcd (power a (cr / 2) N - 1) N,
                    N / gcd (power a (cr / 2) N - 1) N) },
                  ?_, ?_, by simp, by simp, ?_, by simp, ?_⟩
          · rw [afterMeasurement, hcc]
            simp [hodd, htriv, hp1]
          · intro r hr
            simp only [List.mem_cons, List.mem_singleton, List.not_mem_nil, or_false] at hr
            rcases hr with rfl | rfl
            all_goals simp
          · rw [afterMeasurement, hcc]
            simp [hodd, htriv, hp1]
          · intro _
            obtain ⟨hprod, hlo, hhi⟩ :=
              cofactor_bounds _ N (gcd_dvd_right (power a (cr / 2) N - 1) N) hp1.1 hp1.2
            exact ⟨(gcd (power a (cr / 2) N - 1) N,
              N / gcd (power a (cr / 2) N - 1) N), by simp, hprod, hp1.1, hp1.2, hlo, hhi⟩
        · by_cases hp2 : 1 < gcd (power a (cr / 2) N + 1) N ∧
              gcd (power a (cr / 2) N + 1) N < N
          · refine ⟨[{ rec2 with
                   fractionResult := some (getConvergents c q, cr)
                   period := some cr },
                     { rec2 with
                   fractionResult := some (getConvergents c q, cr)
                   period := some cr
                   verification := some (false, false) }],
                    { rec2 with
                  fractionResult := some (getConvergents c q, cr)
                  period := some cr
                  verification := some (false, false)
                  factorizationResult := some (power a (cr / 2) N,
                    gcd (power a (cr / 2) N - 1) N, gcd (power a (cr / 2) N + 1) N)
                  status := .success
                  factors := some (gcd (power a (cr / 2) N + 1) N,
                    N / gcd (power a (cr / 2) N + 1) N) },
                    ?_, ?_, by simp, by simp, ?_, by simp, ?_⟩
            · rw [afterMeasurement, hcc]
              simp [hodd, htriv, hp1, hp2]
            · intro r hr
              simp only [List.mem_cons, List.mem_singleton, List.not_mem_nil, or_false] at hr
              rcases hr with rfl | rfl
              all_goals simp
            · rw [afterMeasurement, hcc]
              simp [hodd, htriv, hp1, hp2]
            · intro _
              obtain ⟨hprod, hlo, hhi⟩ :=
                cofactor_bounds _ N (gcd_dvd_right (power a (cr / 2) N + 1) N) hp2.1 hp2.2
              exact ⟨(gcd (power a (cr / 2) N + 1) N,
                N / gcd (power a (cr / 2) N + 1) N), by simp, hprod, hp2.1, hp2.2, hlo, hhi⟩
          · refine ⟨[{ rec2 with
                   fractionResult := some (getConvergents c q, cr)
                   period := some cr },
                     { rec2 with
                   fractionResult := some (getConvergents c q, cr)
                   period := some cr
                   verification := some (false, false) }],
                    { rec2 with
                  fractionResult := some (getConvergents c q, cr)
                  period := some cr
                  verification := some (false, false)
                  factorizationResult := some (power a (cr / 2) N,
                    gcd (power a (cr / 2) N - 1) N, gcd (power a (cr / 2) N + 1) N)
                  status := .failed
                  error := some trivialFactorsMsg },
                    ?_, ?_, by simp, by simp, ?_, by simp, by simp⟩
            · rw [afterMeasurement, hcc]
              simp [hodd, htriv, hp1, hp2]
            · intro r hr
              simp only [List.mem_cons, List.mem_singleton, List.not_mem_nil, or_false] at hr
              rcases hr with rfl | rfl
              all_goals simp
            · rw [afterMeasurement, hcc]
              simp [hodd, htriv, hp1, hp2]
    · have hodd1 : cr % 2 = 1 := by omega
      refine ⟨[{ rec2 with
                   fractionResult := some (getConvergents c q, cr)
                   period := some cr },
               { rec2 with
                   fractionResult := some (getConvergents c q, cr)
                   period := some cr
                   verification := some (true, false) }],
              { rec2 with
                  fractionResult := some (getConvergents c q, cr)
                  period := some cr
                  verification := some (true, false)
                  status := .failed
                  error := some oddPeriodMsg },
              ?_, ?_, by simp, by simp, ?_, by simp, by simp⟩
      · rw [afterMeasurement, hcc]
        simp [hodd1]
      · intro r hr
        simp only [List.mem_cons, List.mem_singleton, List.not_mem_nil, or_false] at hr
        rcases hr with rfl | rfl
        all_goals simp
      · rw [afterMeasurement, hcc]
        simp [hodd1]

/-- Structure of a whole attempt (for `N ≥ 2` and an in-range base draw):
its snapshots are a list of `running` snapshots followed by exactly one
terminal snapshot with the same attempt id; the terminal snapshot is
`success` iff the attempt reports session termination, and on success it
carries a non-trivial factor pair multiplying to `N`. -/
theorem runAttempt_spec (N id rawA : Nat) (rawS : Nat → Nat)
    (hN : 2 ≤ N) (hA : rawA + 2 < N) :
    ∃ pre last,
      (runAttempt N id rawA rawS).1 = pre ++ [last] ∧
      (∀ r ∈ pre, r.id = id ∧ r.n = N ∧ r.status = .running) ∧
      last.id = id ∧ last.n = N ∧
      ((runAttempt N id rawA rawS).2 = true ↔ last.status = .success) ∧
      (last.status = .success ∨ last.status = .failed) ∧
      (last.status = .success →
        ∃ f, last.factors = some f ∧ f.1 * f.2 = N ∧ 1 < f.1 ∧ f.1 < N ∧
          1 < f.2 ∧ f.2 < N) := by
  by_cases hg : 1 < gcd (rawA + 2) N
  · have hgle : gcd (rawA + 2) N ≤ rawA + 2 :=
      Nat.le_of_dvd (by omega) (gcd_dvd_left _ _)
    have hgN : gcd (rawA + 2) N < N := by omega
    obtain ⟨hprod, hlo, hhi⟩ := cofactor_bounds _ N (gcd_dvd_right (rawA + 2) N) hg hgN
    refine ⟨[{ id := id, n := N, a := rawA + 2, status := .running }],
      { id := id
        n := N
        a := rawA + 2
        status := .success
        gcdCheck := some (gcd (rawA + 2) N)
        factors := some (gcd (rawA + 2) N, N / gcd (rawA + 2) N) },
      ?_, ?_, by simp, by simp, ?_, by simp, ?_⟩
    · rw [runAttempt]
      simp [hg]
    · intro r hr
      simp only [List.mem_singleton] at hr
      subst hr
      simp
    · rw [runAttempt]
      simp [hg]
    · intro _
      exact ⟨(gcd (rawA + 2) N, N / gcd (rawA + 2) N), by simp, hprod, hg, hgN, hlo, hhi⟩
  · have hcop : Nat.gcd (rawA + 2) N = 1 := by
      have heq := gcd_eq_nat_gcd (rawA + 2) N
      have h0 : Nat.gcd N (rawA + 2) ≠ 0 := by
        intro h
        exact absurd ((Nat.gcd_eq_zero_iff.1 h).1) (by omega)
      rw [Nat.gcd_comm]
      omega
    obtain ⟨rr, hfp, _⟩ := findPeriod_isSome (rawA + 2) N hN hcop
    obtain ⟨pre, last, heq, hpre, hlid, hln, hiff, hterm, hsucc⟩ :=
      afterMeasurement_spec N (rawA + 2)
        { id := id
          n := N
          a := rawA + 2
          status := .running
          gcdCheck := some (gcd (rawA + 2) N)
          quantumResult := some ((rawS (rr - 1) + 1) * 2 ^ Nat.clog 2 (N * N) / rr,
            2 ^ Nat.clog 2 (N * N), Nat.clog 2 (N * N)) }
        ((rawS (rr - 1) + 1) * 2 ^ Nat.clog 2 (N * N) / rr) (2 ^ Nat.clog 2 (N * N))
    have hrun1 : (runAttempt N id rawA rawS).1 =
        { id := id, n := N, a := rawA + 2, status := .running } ::
        { id := id, n := N, a := rawA + 2, status := .running,
          gcdCheck := some (gcd (rawA + 2) N) } ::
        { id := id
          n := N
          a := rawA + 2
          status := .running
          gcdCheck := some (gcd (rawA + 2) N)
          quantumResult := some ((rawS (rr - 1) + 1) * 2 ^ Nat.clog 2 (N * N) / rr,
            2 ^ Nat.clog 2 (N * N), Nat.clog 2 (N * N)) } ::
        (afterMeasurement N (rawA + 2)
          { id := id
            n := N
            a := rawA + 2
            status := .running
            gcdCheck := some (gcd (rawA + 2) N)
            quantumResult := some ((rawS (rr - 1) + 1) * 2 ^ Nat.clog 2 (N * N) / rr,
              2 ^ Nat.clog 2 (N * N), Nat.clog 2 (N * N)) }
          ((rawS (rr - 1) + 1) * 2 ^ Nat.clog 2 (N * N) / rr)
          (2 ^ Nat.clog 2 (N * N))).1 := by
      rw [runAttempt]
      simp [hg, hfp]
    have hrun2 : (runAttempt N id rawA rawS).2 =
        (afterMeasurement N (rawA + 2)
          { id := id
            n := N
            a := rawA + 2
            status := .running
            gcdCheck := some (gcd (rawA + 2) N)
            quantumResult := some ((rawS (rr - 1) + 1) * 2 ^ Nat.clog 2 (N * N) / rr,
              2 ^ Nat.clog 2 (N * N), Nat.clog 2 (N * N)) }
          ((rawS (rr - 1) + 1) * 2 ^ Nat.clog 2 (N * N) / rr)
          (2 ^ Nat.clog 2 (N * N))).2 := by
      rw [runAttempt]
      simp [hg, hfp]
    refine ⟨{ id := id, n := N, a := rawA + 2, status := .running } ::
        { id := id, n := N, a := rawA + 2, status := .running,
          gcdCheck := some (gcd (rawA + 2) N) } ::
        { id := id
          n := N
          a := rawA + 2
          status := .running
          gcdCheck := some (gcd (rawA + 2) N)
          quantumResult := some ((rawS (rr - 1) + 1) * 2 ^ Nat.clog 2 (N * N) / rr,
            2 ^ Nat.clog 2 (N * N), Nat.clog 2 (N * N)) } :: pre,
      last, ?_, ?_, by simpa using hlid, by simpa using hln, ?_, hterm, hsucc⟩
    · rw [hrun1, heq]
      simp
    · intro r hr
      simp only [List.mem_cons] at hr
      rcases hr with rfl | rfl | rfl | hr
      · simp
      · simp
      · simp
      · simpa using hpre r hr
    · rw [hrun2]
      exact hiff

/-! ### Session-level structure -/

/-- Every snapshot of an attempt carries that attempt's id and the session
modulus. -/
theorem runAttempt_id (N id rawA : Nat) (rawS : Nat → Nat) :
    ∀ r ∈ (runAttempt N id rawA rawS).1, r.id = id ∧ r.n = N := by
  intro r hr
  rw [runAttempt] at hr
  by_cases hg : 1 < gcd (rawA + 2) N
  · simp [hg] at hr
    rcases hr with rfl | rfl
    all_goals simp
  · rcases hfp : findPeriod (rawA + 2) N with _ | rr
    · simp [hg, hfp] at hr
      rcases hr with rfl | rfl
      all_goals simp
    · simp [hg, hfp] at hr
      rcases hr with rfl | rfl | rfl | hr
      · simp
      · simp
      · simp
      · obtain ⟨pre, last, heq, hpre, hlid, hln, _, _, _⟩ :=
          afterMeasurement_spec N (rawA + 2) _ _ _
        rw [heq] at hr
        rcases List.mem_append.1 hr with hr | hr
        · have := hpre r hr
          exact ⟨this.1, this.2.1⟩
        · rw [List.mem_singleton] at hr
          subst hr
          exact ⟨hlid, hln⟩

/-- Ids produced by the remaining loop lie in `[i + 1, i + fuel]`. -/
theorem runShorLoop_ids (N : Nat) (rngA : Nat → Nat) (rngS : Nat → Nat → Nat) :
    ∀ fuel i, ∀ r ∈ runShorLoop N rngA rngS fuel i,
      i + 1 ≤ r.id ∧ r.id ≤ i + fuel := by
  intro fuel
  induction fuel with
  | zero =>
    intro i r hr
    simp [runShorLoop] at hr
  | succ fuel ih =>
    intro i r hr
    rw [runShorLoop] at hr
    by_cases hdone : (runAttempt N (i + 1) (rngA i) (rngS i)).2 = true
    · simp only [hdone, if_true] at hr
      have := (runAttempt_id N (i + 1) (rngA i) (rngS i) r hr).1
      omega
    · rw [Bool.not_eq_true] at hdone
      simp only [hdone, Bool.false_eq_true, if_false] at hr
      rcases List.mem_append.1 hr with hr | hr
      · have := (runAttempt_id N (i + 1) (rngA i) (rngS i) r hr).1
        omega
      · have := ih (i + 1) r hr
        omega

/-- A list of snapshots with a common id is a `nextRel` chain. -/
theorem chain_same_id (k : Nat) :
    ∀ l : List ShorAttempt, (∀ r ∈ l, r.id = k) → List.Chain' nextRel l := by
  intro l
  induction l with
  | nil => intro _; simp
  | cons x t ih =>
    intro h
    cases t with
    | nil => simp
    | cons y t2 =>
      rw [List.chain'_cons]
      refine ⟨Or.inl ?_, ih ?_⟩
      · rw [h x (by simp), h y (by simp)]
      · intro r hr
        exact h r (by simp [hr])

/-- The full session snapshot list is a `nextRel` chain: ids advance by one
and only after a terminal snapshot. -/
theorem runShorLoop_chain (N : Nat) (rngA : Nat → Nat) (rngS : Nat → Nat → Nat)
    (hN : 2 ≤ N) (hA : ∀ j, rngA j + 2 < N) :
    ∀ fuel i, List.Chain' nextRel (runShorLoop N rngA rngS fuel i) := by
  intro fuel
  induction fuel with
  | zero => intro i; simp [runShorLoop]
  | succ fuel ih =>
    intro i
    rw [runShorLoop]
    obtain ⟨pre, last, heq, hpre, hlid, hln, hiff, hterm, hsucc⟩ :=
      runAttempt_spec N (i + 1) (rngA i) (rngS i) hN (hA i)
    have hchainA : List.Chain' nextRel (runAttempt N (i + 1) (rngA i) (rngS i)).1 := by
      apply chain_same_id (i + 1)
      intro r hr
      exact (runAttempt_id N (i + 1) (rngA i) (rngS i) r hr).1
    by_cases hdone : (runAttempt N (i + 1) (rngA i) (rngS i)).2 = true
    · simp only [hdone, if_true]
      exact hchainA
    · rw [Bool.not_eq_true] at hdone
      simp only [hdone, Bool.false_eq_true, if_false]
      refine List.chain'_append.2 ⟨hchainA, ih (i + 1), ?_⟩
      intro x hx y hy
      rw [heq, List.getLast?_concat] at hx
      rw [Option.mem_some_iff] at hx
      subst hx
      cases fuel with
      | zero =>
        rw [runShorLoop] at hy
        simp at hy
      | succ fuel2 =>
        rw [runShorLoop_head N rngA rngS fuel2 (i + 1)] at hy
        rw [Option.mem_some_iff] at hy
        subst hy
        refine Or.inr ⟨by rw [hlid], ?_⟩
        rcases hterm with h | h
        · rw [h]; simp
        · rw [h]; simp

/-- If a chain starts at a `running` snapshot and ends at a different id,
some strictly intermediate snapshot finalizes the starting id. -/
theorem chain_change :
    ∀ mid : List ShorAttempt, ∀ r r2 : ShorAttempt,
      List.Chain' nextRel (r :: (mid ++ [r2])) → r.id ≠ r2.id → r.status = .running →
      ∃ m1 t m2, mid = m1 ++ t :: m2 ∧ t.id = r.id ∧ t.status ≠ .running := by
  intro mid
  induction mid with
  | nil =>
    intro r r2 hch hne hrun
    rw [List.nil_append, List.chain'_cons] at hch
    rcases hch.1 with hid | ⟨_, hnr⟩
    · exact absurd hid hne
    · exact absurd hrun hnr
  | cons z zs ih =>
    intro r r2 hch hne hrun
    rw [List.cons_append, List.chain'_cons] at hch
    obtain ⟨hrz, hch2⟩ := hch
    rcases hrz with hid | ⟨_, hnr⟩
    · by_cases hzrun : z.status = .running
      · obtain ⟨m1, t, m2, hmid, htid, htst⟩ :=
          ih z r2 hch2 (by rw [← hid]; exact hne) hzrun
        exact ⟨z :: m1, t, m2, by rw [hmid]; simp, by rw [htid, ← hid], htst⟩
      · exact ⟨[], z, zs, rfl, hid.symm, hzrun⟩
    · exact absurd hrun hnr

/-- Splitting `pre ++ [last]` at a non-`running` snapshot (all of `pre`
being `running`) can only hit the final position. -/
theorem eq_last_of_split (pre : List ShorAttempt) (last : ShorAttempt)
    (p : List ShorAttempt) (r : ShorAttempt) (post : List ShorAttempt)
    (h : pre ++ [last] = p ++ r :: post) (hr : r.status ≠ .running)
    (hpre : ∀ x ∈ pre, x.status = .running) : r = last ∧ post = [] := by
  rcases List.append_eq_append_iff.1 h with ⟨m, hm1, hm2⟩ | ⟨m, hm1, hm2⟩
  · -- p = pre ++ m, [last] = m ++ r :: post
    cases m with
    | nil =>
      simp only [List.nil_append] at hm2
      rw [List.cons_eq_cons] at hm2
      exact ⟨hm2.1.symm, hm2.2.symm⟩
    | cons z zs =>
      simp only [List.cons_append] at hm2
      rw [List.cons_eq_cons] at hm2
      exact absurd hm2.2.symm (by simp)
  · -- pre = p ++ m, r :: post = m ++ [last]
    cases m with
    | nil =>
      simp only [List.nil_append] at hm2
      rw [List.cons_eq_cons] at hm2
      exact ⟨hm2.1, hm2.2⟩
    | cons z zs =>
      simp only [List.cons_append] at hm2
      rw [List.cons_eq_cons] at hm2
      obtain ⟨rfl, _⟩ := hm2
      have hz : r ∈ pre := by
        rw [hm1]
        simp
      exact absurd (hpre r hz) hr

/-- Once a `success` snapshot is yielded, the session yields nothing
further: a `success` snapshot is the last element of the loop output. -/
theorem runShorLoop_success_last (N : Nat) (rngA : Nat → Nat) (rngS : Nat → Nat → Nat)
    (hN : 2 ≤ N) (hA : ∀ j, rngA j + 2 < N) :
    ∀ fuel i p r post, runShorLoop N rngA rngS fuel i = p ++ r :: post →
      r.status = .success → post = [] := by
  intro fuel
  induction fuel with
  | zero =>
    intro i p r post h _
    rw [runShorLoop] at h
    exact absurd h.symm (by simp)
  | succ fuel ih =>
    intro i p r post h hs
    rw [runShorLoop] at h
    obtain ⟨pre, last, heq, hpre, hlid, hln, hiff, hterm, hsucc⟩ :=
      runAttempt_spec N (i + 1) (rngA i) (rngS i) hN (hA i)
    have hrs : r.status ≠ .running := by rw [hs]; simp
    by_cases hdone : (runAttempt N (i + 1) (rngA i) (rngS i)).2 = true
    · simp only [hdone, if_true] at h
      rw [heq] at h
      exact (eq_last_of_split pre last p r post h hrs fun x hx => (hpre x hx).2.2).2
    · rw [Bool.not_eq_true] at hdone
      simp only [hdone, Bool.false_eq_true, if_false] at h
      rcases List.append_eq_append_iff.1 h with ⟨m, hm1, hm2⟩ | ⟨m, hm1, hm2⟩
      · exact ih (i + 1) m r post hm2 hs
      · cases m with
        | nil =>
          simp only [List.nil_append] at hm2
          exact ih (i + 1) [] r post hm2.symm hs
        | cons z zs =>
          rw [List.cons_append, List.cons_eq_cons] at hm2
          obtain ⟨rfl, _⟩ := hm2
          rw [heq] at hm1
          obtain ⟨hrl, _⟩ := eq_last_of_split pre last p r zs hm1 hrs
            fun x hx => (hpre x hx).2.2
          subst hrl
          rw [hs] at hiff
          exact absurd (hiff.2 rfl) (by rw [hdone]; simp)

/-- A `success` snapshot of the loop output carries a non-trivial factor
pair. -/
theorem runShorLoop_success_bounds (N : Nat) (rngA : Nat → Nat)
    (rngS : Nat → Nat → Nat) (hN : 2 ≤ N) (hA : ∀ j, rngA j + 2 < N) :
    ∀ fuel i, ∀ r ∈ runShorLoop N rngA rngS fuel i, r.status = .success →
      r.factors.isSome ∧
      (∀ f, r.factors = some f → 1 < f.1 ∧ f.1 < N ∧ 1 < f.2 ∧ f.2 < N ∧
        f.1 * f.2 = N) := by
  intro fuel
  induction fuel with
  | zero =>
    intro i r hr
    simp [runShorLoop] at hr
  | succ fuel ih =>
    intro i r hr hs
    rw [runShorLoop] at hr
    have hatt : r ∈ (runAttempt N (i + 1) (rngA i) (rngS i)).1 →
        r.factors.isSome ∧
        (∀ f, r.factors = some f → 1 < f.1 ∧ f.1 < N ∧ 1 < f.2 ∧ f.2 < N ∧
          f.1 * f.2 = N) := by
      intro hmem
      obtain ⟨pre, last, heq, hpre, hlid, hln, hiff, hterm, hsucc⟩ :=
        runAttempt_spec N (i + 1) (rngA i) (rngS i) hN (hA i)
      rw [heq] at hmem
      rcases List.mem_append.1 hmem with hmem | hmem
      · have := (hpre r hmem).2.2
        rw [hs] at this
        simp at this
      · rw [List.mem_singleton] at hmem
        subst hmem
        obtain ⟨f, hf, hprod, h1, h2, h3, h4⟩ := hsucc hs
        refine ⟨by rw [hf]; simp, ?_⟩
        intro f' hf'
        rw [hf, Option.some_inj] at hf'
        subst hf'
        exact ⟨h1, h2, h3, h4, hprod⟩
    by_cases hdone : (runAttempt N (i + 1) (rngA i) (rngS i)).2 = true
    · simp only [hdone, if_true] at hr
      exact hatt hr
    · rw [Bool.not_eq_true] at hdone
      simp only [hdone, Bool.false_eq_true, if_false] at hr
      rcases List.mem_append.1 hr with hr | hr
      · exact hatt hr
      · exact ih (i + 1) r hr hs

/-- Claim C8: in every valid session, snapshot ids are positive, 1-based,
bounded by the attempt ceiling 10, and consecutive snapshots either share
an attempt id or advance it by one right after a terminal snapshot (hence
at any point at most one attempt is `running`: before a `running`
snapshot of a different attempt appears, the earlier attempt was
finalized); and a `success` snapshot ends the session output. -/
theorem claim_C8 (N : Nat) (rngA : Nat → Nat) (rngS : Nat → Nat → Nat)
    (recs : List ShorAttempt) (hA : ∀ j, rngA j + 2 < N)
    (hok : runShor N rngA rngS = Except.ok recs) :
    (∀ rec ∈ recs, 1 ≤ rec.id ∧ rec.id ≤ 10) ∧
    (∀ rec rest, recs = rec :: rest → rec.id = 1) ∧
    List.Chain' nextRel recs ∧
    (∀ p r mid r2 post, recs = p ++ r :: (mid ++ r2 :: post) →
      r.status = .running → r2.status = .running → r.id ≠ r2.id →
      ∃ m1 t m2, mid = m1 ++ t :: m2 ∧ t.id = r.id ∧ t.status ≠ .running) ∧
    (∀ p r post, recs = p ++ r :: post → r.status = .success → post = []) := by
  rw [runShor] at hok
  by_cases hv : N ≤ 1 ∨ N % 2 = 0
  · rw [if_pos hv] at hok
    exact absurd hok (by simp)
  · rw [if_neg hv] at hok
    injection hok with hok
    subst hok
    have hN : 2 ≤ N := by omega
    have hchain := runShorLoop_chain N rngA rngS hN hA 10 0
    refine ⟨?_, ?_, hchain, ?_, ?_⟩
    · intro rec hrec
      have := runShorLoop_ids N rngA rngS 10 0 rec hrec
      omega
    · intro rec rest hcons
      have hh := runShorLoop_head N rngA rngS 9 0
      rw [hcons] at hh
      simp only [List.head?_cons, Option.some_inj] at hh
      rw [hh]
    · intro p r mid r2 post hsplit hrun hrun2 hne
      have hshape : runShorLoop N rngA rngS 10 0 =
          p ++ ((r :: (mid ++ [r2])) ++ post) := by
        rw [hsplit]
        simp
      rw [hshape] at hchain
      have hch1 := (List.chain'_append.1 hchain).2.1
      have hch2 := (List.chain'_append.1 hch1).1
      exact chain_change mid r r2 hch2 hne hrun
    · exact runShorLoop_success_last N rngA rngS hN hA 10 0

/-- Witness for claim C8: the success snapshot of the concrete session on
`N = 15` has a valid id. -/
theorem claim_C8_witness : 1 ≤ w5.id ∧ w5.id ≤ 10 :=
  (claim_C8 15 rng0 rngS0 [w0, w1, w2, w3, w4, w5]
    (fun j => by norm_num [rng0]) session15).1 w5 (by simp)

/-- Claim C10: every `success` snapshot of a valid session carries factors
that are both non-trivial: strictly between `1` and `n`. -/
theorem claim_C10 (N : Nat) (rngA : Nat → Nat) (rngS : Nat → Nat → Nat)
    (recs : List ShorAttempt) (hA : ∀ j, rngA j + 2 < N)
    (hok : runShor N rngA rngS = Except.ok recs) :
    ∀ rec ∈ recs, rec.status = .success →
      rec.factors.isSome ∧
      (∀ f, rec.factors = some f → 1 < f.1 ∧ f.1 < N ∧ 1 < f.2 ∧ f.2 < N ∧
        f.1 * f.2 = N) := by
  rw [runShor] at hok
  by_cases hv : N ≤ 1 ∨ N % 2 = 0
  · rw [if_pos hv] at hok
    exact absurd hok (by simp)
  · rw [if_neg hv] at hok
    injection hok with hok
    subst hok
    intro rec hrec hs
    exact runShorLoop_success_bounds N rngA rngS (by omega) hA 10 0 rec hrec hs

/-- Witness for claim C10: the success snapshot of the concrete session on
`N = 15` has factors `(3, 5)`, both non-trivial. -/
theorem claim_C10_witness :
    w5.factors.isSome ∧
    (∀ f, w5.factors = some f → 1 < f.1 ∧ f.1 < 15 ∧ 1 < f.2 ∧ f.2 < 15 ∧
      f.1 * f.2 = 15) :=
  claim_C10 15 rng0 rngS0 [w0, w1, w2, w3, w4, w5]
    (fun j => by norm_num [rng0]) session15 w5 (by simp) (by simp [w5, w4, w3, w2, w1, w0])

end Shor
